import Mathlib

/-!
Verification of the Fredo snippet manager's search subsystem.

The development shallowly embeds `fredo/core/search.py` (the `SearchEngine`
class: `search` and `_calculate_score`) and the filter part of
`fredo/core/database.py` (`Database.search`).  Strings are `List Char`;
Python `str.lower` is modelled for ASCII text; the `thefuzz` similarity
primitives (backed by rapidfuzz's Indel ratio) are modelled exactly as
`round(200 * lcs(a,b) / (|a| + |b|))` with Python's round-half-to-even,
and `partial_ratio` as the optimal substring alignment.  Python `int`
flooring of the weighted scores (`* 0.9`, `* 0.5`, `* 1.1`) coincides with
exact rational flooring at every reachable magnitude, so the embedding
uses `* 9 / 10`, `/ 2` and `* 11 / 10` on `Nat`.
-/

namespace Fredo

/-- Python `str.lower`, modelled for ASCII text. -/
def pyLower (s : List Char) : List Char := s.map Char.toLower

/-- Whether the first character list is a prefix of the second. -/
def isPrefixL : List Char → List Char → Bool
  | [], _ => true
  | _ :: _, [] => false
  | a :: as, b :: bs => a == b && isPrefixL as bs

/-- Python's contiguous substring test (`needle in hay`). -/
def inSub (needle : List Char) : List Char → Bool
  | [] => isPrefixL needle []
  | c :: t => isPrefixL needle (c :: t) || inSub needle t

/-- Fuel-indexed helper for `countOcc`; the fuel dominates the scan length. -/
def countOccGo (needle : List Char) : Nat → List Char → Nat
  | 0, _ => 0
  | _ + 1, [] => 0
  | fuel + 1, c :: t =>
    if isPrefixL needle (c :: t) then
      1 + countOccGo needle fuel ((c :: t).drop needle.length)
    else
      countOccGo needle fuel t

/-- Python `hay.count(needle)`: non-overlapping occurrences, scanning left to right. -/
def countOcc (needle hay : List Char) : Nat := countOccGo needle (hay.length + 1) hay

/-- Fuel-indexed longest-common-subsequence length; every recursive call
shrinks the summed length by exactly one, so a fuel of that sum is exact. -/
def lcsLenGo : Nat → List Char → List Char → Nat
  | fuel + 1, a :: as, b :: bs =>
    if a = b then lcsLenGo fuel as bs + 1
    else max (lcsLenGo fuel (a :: as) bs) (lcsLenGo fuel as (b :: bs))
  | _, _, _ => 0

/-- Length of a longest common subsequence of two character lists. -/
def lcsLen (a b : List Char) : Nat := lcsLenGo (a.length + b.length) a b

/-- Python `round` (half to even) of the fraction `n / q`, for `q > 0`. -/
def pyRound (n q : Nat) : Nat :=
  let d := n / q
  let r := n % q
  if 2 * r < q then d
  else if q < 2 * r then d + 1
  else if d % 2 = 0 then d else d + 1

/-- Model of `thefuzz.fuzz.ratio`: rapidfuzz's Indel-based similarity
`200 * lcs(a, b) / (|a| + |b|)` rounded half to even, with 100 for two
empty strings. -/
def fuzzRatio (a b : List Char) : Nat :=
  if a.length + b.length = 0 then 100
  else pyRound (200 * lcsLen a b) (a.length + b.length)

/-- All contiguous substrings of a character list. -/
def allWindows (l : List Char) : List (List Char) :=
  (List.range (l.length + 1)).flatMap (fun i =>
    (List.range (l.length - i + 1)).map (fun j => (l.drop i).take j))

/-- Model of `thefuzz.fuzz.partial_ratio`: the best `fuzzRatio` between the
shorter string and any contiguous substring of the longer one (rapidfuzz's
optimal substring alignment). -/
def partRatio (s1 s2 : List Char) : Nat :=
  if s1.length ≤ s2.length then
    ((allWindows s2).map (fun w => fuzzRatio s1 w)).foldr max 0
  else
    ((allWindows s1).map (fun w => fuzzRatio s2 w)).foldr max 0

/-- The snippet fields read by the search subsystem (`fredo/core/models.py`).
The remaining fields (`id`, `execution_mode`, gist metadata, `created_at`)
never influence `Database.search` or `SearchEngine`; `updatedAt` abstracts
the ISO timestamp as an order key. -/
structure Snippet where
  name : List Char
  content : List Char
  language : List Char
  tags : List (List Char)
  updatedAt : Nat
  deriving DecidableEq

/-- A search result pairing a snippet with its score (`SearchResult` in
`fredo/core/search.py`). -/
structure SearchResult where
  snippet : Snippet
  score : Nat
  deriving DecidableEq

/-- The tag-scoring loop of `SearchEngine._calculate_score`: +70 for each tag
containing the query, else +50 when the fuzzy ratio with the tag exceeds 80. -/
def tagScore (ql : List Char) (tags : List (List Char)) : Nat :=
  tags.foldl
    (fun acc tag =>
      if inSub ql (pyLower tag) then acc + 70
      else if 80 < fuzzRatio ql (pyLower tag) then acc + 50
      else acc)
    0

/-- The content branch of `SearchEngine._calculate_score`: substring hits give
`min 50 (20 + 5 * occurrences)`, else half the partial ratio against the
first 500 characters. -/
def contentScore (ql contentL : List Char) : Nat :=
  if inSub ql contentL then min 50 (20 + 5 * countOcc ql contentL)
  else partRatio ql (contentL.take 500) / 2

/-- The `total_score` local of `_calculate_score`: the maximum of the
0.9-weighted floored name ratio, the tag sum, and the content score. -/
def fuzzyTotal (ns ts cs : Nat) : Nat := max (ns * 9 / 10) (max ts cs)

/-- The `match_types` local of `_calculate_score`: how many of the three
signals fire.  The first signal compares the raw (unweighted) name ratio
against 60. -/
def matchTypes (ns ts cs : Nat) : Nat :=
  (if 60 < ns then 1 else 0) + (if 0 < ts then 1 else 0) + (if 0 < cs then 1 else 0)

/-- The combine-and-boost tail of `_calculate_score`: the multi-signal boost
multiplies by 1.1, floors, and caps at 100. -/
def boost (ns ts cs : Nat) : Nat :=
  if 1 < matchTypes ns ts cs then min 100 (fuzzyTotal ns ts cs * 11 / 10)
  else fuzzyTotal ns ts cs

/-- `SearchEngine._calculate_score`, translated clause by clause: exact
lower-cased name match 100; name substring 95; otherwise the combined and
possibly boosted maximum of the weighted name ratio, the tag sum and the
content score. -/
def calculateScore (q : List Char) (s : Snippet) : Nat :=
  if pyLower q = pyLower s.name then 100
  else if inSub (pyLower q) (pyLower s.name) then 95
  else
    boost (fuzzRatio (pyLower q) (pyLower s.name)) (tagScore (pyLower q) s.tags)
      (contentScore (pyLower q) (pyLower s.content))

/-- Modelled from the spec: the signal count of §4.2's multi-signal boost as
the spec words it, testing the 0.9-weighted floored name fuzzy score
against 60 instead of the raw ratio. -/
def specMatchTypes (ns ts cs : Nat) : Nat :=
  (if 60 < ns * 9 / 10 then 1 else 0) + (if 0 < ts then 1 else 0) +
    (if 0 < cs then 1 else 0)

/-- Modelled from the spec: §4.2's combine-and-boost step with the spec's
signal count. -/
def specBoost (ns ts cs : Nat) : Nat :=
  if 1 < specMatchTypes ns ts cs then min 100 (fuzzyTotal ns ts cs * 11 / 10)
  else fuzzyTotal ns ts cs

/-- Modelled from the spec: the Scoring Function as §4.2 words it, identical
to `calculateScore` except for the boost's first signal. -/
def specSignalScore (q : List Char) (s : Snippet) : Nat :=
  if pyLower q = pyLower s.name then 100
  else if inSub (pyLower q) (pyLower s.name) then 95
  else
    specBoost (fuzzRatio (pyLower q) (pyLower s.name)) (tagScore (pyLower q) s.tags)
      (contentScore (pyLower q) (pyLower s.content))

/-- Python truthiness of the optional query string: `None` and the empty
string are falsy. -/
def queryFalsy : Option (List Char) → Bool
  | none => true
  | some q => q.isEmpty

/-- The score-and-keep loop of `SearchEngine.search`: score every candidate
and keep those with a positive score. -/
def scoreFilter (q : List Char) (snips : List Snippet) : List SearchResult :=
  snips.filterMap (fun s =>
    if 0 < calculateScore q s then some ⟨s, calculateScore q s⟩ else none)

/-- Stable descending insertion for `sortDescBy`: the inserted element goes
before the first element whose key is not larger. -/
def insertDescBy {α : Type} (key : α → Nat) (x : α) : List α → List α
  | [] => [x]
  | y :: ys => if key y ≤ key x then x :: y :: ys else y :: insertDescBy key x ys

/-- Python's `list.sort(key=..., reverse=True)`: a stable sort into descending
key order (ties keep their original relative order). -/
def sortDescBy {α : Type} (key : α → Nat) : List α → List α
  | [] => []
  | x :: xs => insertDescBy key x (sortDescBy key xs)

/-- `SearchEngine.search` before the limit step: all candidates at score 100
when the query is falsy, otherwise the scored, filtered, sorted list. -/
def searchResults (query : Option (List Char)) (snips : List Snippet) :
    List SearchResult :=
  if queryFalsy query then snips.map (fun s => ⟨s, 100⟩)
  else sortDescBy (fun r => r.score) (scoreFilter (query.getD []) snips)

/-- Python's `xs[:l]` slice: a front take for `l ≥ 0`, and for `l < 0` all but
the last `|l|` elements. -/
def pySlice {α : Type} (l : Int) (xs : List α) : List α :=
  if 0 ≤ l then xs.take l.toNat else xs.take (xs.length - (-l).toNat)

/-- The `if limit: results = results[:limit]` step of `SearchEngine.search`:
a limit of `None` or `0` is falsy and leaves the list unchanged. -/
def applyLimit (limit : Option Int) (res : List SearchResult) :
    List SearchResult :=
  match limit with
  | none => res
  | some l => if l = 0 then res else pySlice l res

/-- `SearchEngine.search` on an already-fetched candidate list. -/
def search (query : Option (List Char)) (snips : List Snippet)
    (limit : Option Int) : List SearchResult :=
  applyLimit limit (searchResults query snips)

/-- Python truthiness of the optional tag-filter list. -/
def tagsFalsy : Option (List (List Char)) → Bool
  | none => true
  | some ts => ts.isEmpty

/-- Lower-signed hex digit used by `json.dumps` escapes. -/
def jsonHexDigit (n : Nat) : Char :=
  if n < 10 then Char.ofNat (48 + n) else Char.ofNat (87 + n)

/-- A `\uXXXX` escape for a BMP code point. -/
def jsonUEscape (n : Nat) : List Char :=
  ['\\', 'u', jsonHexDigit (n / 4096 % 16), jsonHexDigit (n / 256 % 16),
    jsonHexDigit (n / 16 % 16), jsonHexDigit (n % 16)]

/-- Character escaping of `json.dumps` with its default `ensure_ascii=True`,
modelled for code points in the basic multilingual plane. -/
def jsonEscapeChar (c : Char) : List Char :=
  if c = '"' then ['\\', '"']
  else if c = '\\' then ['\\', '\\']
  else if c = Char.ofNat 10 then ['\\', 'n']
  else if c = Char.ofNat 9 then ['\\', 't']
  else if c = Char.ofNat 13 then ['\\', 'r']
  else if c = Char.ofNat 8 then ['\\', 'b']
  else if c = Char.ofNat 12 then ['\\', 'f']
  else if c.toNat < 32 ∨ 127 ≤ c.toNat then jsonUEscape c.toNat
  else [c]

/-- String-body escaping of `json.dumps`. -/
def jsonEscape (s : List Char) : List Char := s.flatMap jsonEscapeChar

/-- A JSON string literal for one tag. -/
def jsonQuote (t : List Char) : List Char := '"' :: (jsonEscape t ++ ['"'])

/-- The comma-separated items of `json.dumps` on a list (default separator
is a comma followed by a space). -/
def jsonItems : List (List Char) → List Char
  | [] => []
  | [t] => jsonQuote t
  | t :: ts => jsonQuote t ++ (',' :: ' ' :: jsonItems ts)

/-- `json.dumps` of the tag list, which is how `Snippet.to_db_dict` stores the
`tags` column read by `Database.search`. -/
def jsonDump (tags : List (List Char)) : List Char :=
  '[' :: (jsonItems tags ++ [']'])

/-- SQLite `column LIKE '%needle%'`: a substring test that is
case-insensitive on ASCII letters.  (`%`/`_` wildcards inside the needle
are not modelled; no claim uses them.) -/
def likeSub (needle hay : List Char) : Bool :=
  inSub (pyLower needle) (pyLower hay)

/-- The LIKE pattern body `"tag"` built by `Database.search` for one filter
tag (the `f-string` wraps the tag in double quotes). -/
def tagPattern (t : List Char) : List Char := '"' :: (t ++ ['"'])

/-- The WHERE clause of `Database.search` applied to one row: an optional
name-or-content LIKE for the query, an exact (case-sensitive) language
equality, and an OR over the tag filter of LIKE tests against the JSON tags
column.  Falsy (absent or empty) arguments impose no condition. -/
def dbQualifies (query language : Option (List Char))
    (tags : Option (List (List Char))) (s : Snippet) : Bool :=
  (queryFalsy query || likeSub (query.getD []) s.name ||
    likeSub (query.getD []) s.content) &&
  (queryFalsy language || s.language == language.getD []) &&
  (tagsFalsy tags ||
    (tags.getD []).any (fun t => likeSub (tagPattern t) (jsonDump s.tags)))

/-- `Database.search` over an abstract row store: filter by the WHERE clause,
then `ORDER BY updated_at DESC` (modelled as a stable descending sort; SQL
leaves the tie order unspecified). -/
def dbSearch (store : List Snippet) (query language : Option (List Char))
    (tags : Option (List (List Char))) : List Snippet :=
  sortDescBy (fun s => s.updatedAt) (store.filter (dbQualifies query language tags))

/-- The full `SearchEngine.search` pipeline: fetch candidates through
`Database.search` (which the engine calls without a query), then score,
sort and limit. -/
def engineSearch (query language : Option (List Char))
    (tags : Option (List (List Char))) (limit : Option Int)
    (store : List Snippet) : List SearchResult :=
  search query (dbSearch store none language tags) limit

/-! ### Properties of the stable descending sort -/

theorem insertDescBy_perm {α : Type} (key : α → Nat) (x : α) (l : List α) :
    (insertDescBy key x l).Perm (x :: l) := by
  induction l with
  | nil => exact List.Perm.refl _
  | cons y ys ih =>
    by_cases h : key y ≤ key x
    · simp only [insertDescBy, if_pos h]
      exact List.Perm.refl _
    · simp only [insertDescBy, if_neg h]
      exact (ih.cons y).trans (List.Perm.swap x y ys)

theorem sortDescBy_perm {α : Type} (key : α → Nat) (l : List α) :
    (sortDescBy key l).Perm l := by
  induction l with
  | nil => exact List.Perm.refl _
  | cons x xs ih =>
    simp only [sortDescBy]
    exact (insertDescBy_perm key x _).trans (ih.cons x)

theorem mem_sortDescBy {α : Type} {key : α → Nat} {l : List α} {x : α} :
    x ∈ sortDescBy key l ↔ x ∈ l :=
  (sortDescBy_perm key l).mem_iff

theorem mem_insertDescBy {α : Type} {key : α → Nat} {x y : α} {l : List α} :
    y ∈ insertDescBy key x l ↔ y = x ∨ y ∈ l := by
  rw [(insertDescBy_perm key x l).mem_iff]
  simp

theorem insertDescBy_pairwise {α : Type} (key : α → Nat) (x : α) {l : List α}
    (h : l.Pairwise (fun a b => key b ≤ key a)) :
    (insertDescBy key x l).Pairwise (fun a b => key b ≤ key a) := by
  induction l with
  | nil => simp [insertDescBy]
  | cons y ys ih =>
    obtain ⟨h1, h2⟩ := List.pairwise_cons.mp h
    by_cases hc : key y ≤ key x
    · simp only [insertDescBy, if_pos hc]
      refine List.Pairwise.cons ?_ (List.Pairwise.cons h1 h2)
      intro z hz
      rcases List.mem_cons.mp hz with rfl | hz'
      · exact hc
      · exact le_trans (h1 z hz') hc
    · simp only [insertDescBy, if_neg hc]
      refine List.Pairwise.cons ?_ (ih h2)
      intro z hz
      rcases mem_insertDescBy.mp hz with rfl | hz'
      · exact Nat.le_of_lt (Nat.lt_of_not_le hc)
      · exact h1 z hz'

theorem sortDescBy_pairwise {α : Type} (key : α → Nat) (l : List α) :
    (sortDescBy key l).Pairwise (fun a b => key b ≤ key a) := by
  induction l with
  | nil => simp [sortDescBy]
  | cons x xs ih =>
    simp only [sortDescBy]
    exact insertDescBy_pairwise key x ih

theorem insertDescBy_map {α β : Type} (key : β → Nat) (f : α → β) (x : α)
    (l : List α) :
    (insertDescBy (fun a => key (f a)) x l).map f
      = insertDescBy key (f x) (l.map f) := by
  induction l with
  | nil => rfl
  | cons y ys ih =>
    by_cases h : key (f y) ≤ key (f x)
    · simp [insertDescBy, h]
    · simp [insertDescBy, h, ih]

theorem sortDescBy_map {α β : Type} (key : β → Nat) (f : α → β) (l : List α) :
    (sortDescBy (fun a => key (f a)) l).map f = sortDescBy key (l.map f) := by
  induction l with
  | nil => rfl
  | cons x xs ih =>
    simp only [sortDescBy, List.map_cons, insertDescBy_map, ih]

/-- The order relation characterising a stable descending sort of an
index-annotated list: larger keys first, and among equal keys the smaller
original index first. -/
def stableRel {α : Type} (key : α → Nat) (a b : Nat × α) : Prop :=
  key b.2 < key a.2 ∨ (key a.2 = key b.2 ∧ a.1 < b.1)

theorem stableRel_key_le {α : Type} {key : α → Nat} {a b : Nat × α}
    (h : stableRel key a b) : key b.2 ≤ key a.2 := by
  rcases h with h | ⟨h, _⟩
  · exact le_of_lt h
  · exact le_of_eq h.symm

theorem insertDescBy_stable {α : Type} (key : α → Nat) (x : Nat × α)
    {l : List (Nat × α)} (hp : l.Pairwise (stableRel key))
    (hidx : ∀ y ∈ l, x.1 < y.1) :
    (insertDescBy (fun p => key p.2) x l).Pairwise (stableRel key) := by
  induction l with
  | nil => simp [insertDescBy]
  | cons y ys ih =>
    obtain ⟨h1, h2⟩ := List.pairwise_cons.mp hp
    by_cases hc : key y.2 ≤ key x.2
    · simp only [insertDescBy, if_pos hc]
      refine List.Pairwise.cons ?_ (List.Pairwise.cons h1 h2)
      intro z hz
      rcases List.mem_cons.mp hz with rfl | hz'
      · rcases eq_or_lt_of_le hc with heq | hlt
        · exact Or.inr ⟨heq.symm, hidx z (List.mem_cons_self _ _)⟩
        · exact Or.inl hlt
      · have hzle : key z.2 ≤ key x.2 := le_trans (stableRel_key_le (h1 z hz')) hc
        rcases eq_or_lt_of_le hzle with heq | hlt
        · exact Or.inr ⟨heq.symm, hidx z (List.mem_cons_of_mem _ hz')⟩
        · exact Or.inl hlt
    · simp only [insertDescBy, if_neg hc]
      refine List.Pairwise.cons ?_
        (ih h2 (fun y' hy' => hidx y' (List.mem_cons_of_mem _ hy')))
      intro z hz
      rcases mem_insertDescBy.mp hz with rfl | hz'
      · exact Or.inl (Nat.lt_of_not_le hc)
      · exact h1 z hz'

theorem sortDescBy_stable {α : Type} (key : α → Nat) (l : List (Nat × α))
    (h : l.Pairwise (fun a b => a.1 < b.1)) :
    (sortDescBy (fun p => key p.2) l).Pairwise (stableRel key) := by
  induction l with
  | nil => simp [sortDescBy]
  | cons x xs ih =>
    obtain ⟨h1, h2⟩ := List.pairwise_cons.mp h
    simp only [sortDescBy]
    exact insertDescBy_stable key x (ih h2)
      (fun y hy => h1 y (mem_sortDescBy.mp hy))

theorem enumFrom_le_fst {α : Type} {p : Nat × α} :
    ∀ {n : Nat} {l : List α}, p ∈ List.enumFrom n l → n ≤ p.1 := by
  intro n l
  induction l generalizing n with
  | nil => intro hp; simp [List.enumFrom] at hp
  | cons a t ih =>
    intro hp
    simp only [List.enumFrom, List.mem_cons] at hp
    rcases hp with rfl | hp'
    · exact le_refl n
    · exact Nat.le_of_succ_le (ih hp')

theorem enumFrom_pairwise_fst_lt {α : Type} (n : Nat) (l : List α) :
    (List.enumFrom n l).Pairwise (fun a b => a.1 < b.1) := by
  induction l generalizing n with
  | nil => simp [List.enumFrom]
  | cons a t ih =>
    simp only [List.enumFrom]
    refine List.Pairwise.cons ?_ (ih (n + 1))
    intro p hp
    exact Nat.lt_of_succ_le (enumFrom_le_fst hp)

theorem enum_pairwise_fst_lt {α : Type} (l : List α) :
    l.enum.Pairwise (fun a b => a.1 < b.1) :=
  enumFrom_pairwise_fst_lt 0 l

/-! ### Bounds on the scoring primitives -/

theorem lcsLenGo_le_left :
    ∀ (fuel : Nat) (a b : List Char), lcsLenGo fuel a b ≤ a.length := by
  intro fuel
  induction fuel with
  | zero => intro a b; simp [lcsLenGo]
  | succ f ih =>
    intro a b
    cases a with
    | nil => simp [lcsLenGo]
    | cons x as =>
      cases b with
      | nil => simp [lcsLenGo]
      | cons y bs =>
        simp only [lcsLenGo, List.length_cons]
        split
        · have := ih as bs
          omega
        · refine max_le ?_ ?_
          · have := ih (x :: as) bs
            simp only [List.length_cons] at this
            omega
          · have := ih as (y :: bs)
            omega

theorem lcsLenGo_le_right :
    ∀ (fuel : Nat) (a b : List Char), lcsLenGo fuel a b ≤ b.length := by
  intro fuel
  induction fuel with
  | zero => intro a b; simp [lcsLenGo]
  | succ f ih =>
    intro a b
    cases a with
    | nil => simp [lcsLenGo]
    | cons x as =>
      cases b with
      | nil => simp [lcsLenGo]
      | cons y bs =>
        simp only [lcsLenGo, List.length_cons]
        split
        · have := ih as bs
          omega
        · refine max_le ?_ ?_
          · have := ih (x :: as) bs
            omega
          · have := ih as (y :: bs)
            simp only [List.length_cons] at this
            omega

theorem lcsLen_le_left (a b : List Char) : lcsLen a b ≤ a.length :=
  lcsLenGo_le_left _ a b

theorem lcsLen_le_right (a b : List Char) : lcsLen a b ≤ b.length :=
  lcsLenGo_le_right _ a b

theorem pyRound_le_of_le {n q : Nat} (hq : 0 < q) (h : n ≤ 100 * q) :
    pyRound n q ≤ 100 := by
  have hd : n / q ≤ 100 := by
    have h' : n / q ≤ 100 * q / q := Nat.div_le_div_right h
    rwa [Nat.mul_div_cancel _ hq] at h'
  have hmod : q * (n / q) + n % q = n := Nat.div_add_mod n q
  unfold pyRound
  by_cases h1 : 2 * (n % q) < q
  · simpa [h1] using hd
  · have hd' : n / q < 100 ∨ (n / q = 100 ∧ n % q = 0) := by
      rcases Nat.lt_or_ge (n / q) 100 with hlt | hge
      · exact Or.inl hlt
      · have he : n / q = 100 := le_antisymm hd hge
        rw [he] at hmod
        exact Or.inr ⟨he, by omega⟩
    rcases hd' with hlt | ⟨he, hr⟩
    · simp only [if_neg h1]
      split
      · omega
      · split <;> omega
    · exact absurd (by omega : 2 * (n % q) < q) h1

theorem fuzzRatio_le_100 (a b : List Char) : fuzzRatio a b ≤ 100 := by
  unfold fuzzRatio
  split
  · exact le_refl 100
  · rename_i hne
    have h1 := lcsLen_le_left a b
    have h2 := lcsLen_le_right a b
    exact pyRound_le_of_le (by omega) (by omega)

theorem foldr_max_le {l : List Nat} (h : ∀ x ∈ l, x ≤ 100) :
    l.foldr max 0 ≤ 100 := by
  induction l with
  | nil => simp
  | cons x xs ih =>
    simp only [List.foldr]
    exact max_le (h x (List.mem_cons_self _ _))
      (ih fun y hy => h y (List.mem_cons_of_mem _ hy))

theorem partRatio_le_100 (s1 s2 : List Char) : partRatio s1 s2 ≤ 100 := by
  unfold partRatio
  split <;>
  · apply foldr_max_le
    intro x hx
    obtain ⟨w, _, rfl⟩ := List.mem_map.mp hx
    exact fuzzRatio_le_100 _ _

theorem tagScore_le_70 {ql : List Char} {tags : List (List Char)}
    (h : tags.length ≤ 1) : tagScore ql tags ≤ 70 := by
  rcases tags with _ | ⟨t, _ | ⟨u, rest⟩⟩
  · simp [tagScore]
  · simp only [tagScore, List.foldl_cons, List.foldl_nil]
    split
    · omega
    · split <;> omega
  · simp only [List.length_cons] at h
    omega

theorem contentScore_le_50 (ql c : List Char) : contentScore ql c ≤ 50 := by
  unfold contentScore
  split
  · exact min_le_left _ _
  · have := partRatio_le_100 ql (c.take 500)
    omega

theorem fuzzyTotal_le {ns ts cs : Nat} (hns : ns ≤ 100) (hts : ts ≤ 70)
    (hcs : cs ≤ 50) : fuzzyTotal ns ts cs ≤ 90 := by
  unfold fuzzyTotal
  refine max_le (by omega) (max_le (by omega) (by omega))

theorem boost_le_100 {ns ts cs : Nat} (hns : ns ≤ 100) (hts : ts ≤ 70)
    (hcs : cs ≤ 50) : boost ns ts cs ≤ 100 := by
  unfold boost
  split
  · exact min_le_left _ _
  · exact le_trans (fuzzyTotal_le hns hts hcs) (by omega)

theorem le_boost_of_le_cs {ns ts cs m : Nat} (hm : m ≤ cs) (hcs : cs ≤ 50) :
    m ≤ boost ns ts cs := by
  have h1 : cs ≤ fuzzyTotal ns ts cs :=
    le_trans (le_max_right ts cs) (le_max_right _ _)
  have h2 : fuzzyTotal ns ts cs ≤ fuzzyTotal ns ts cs * 11 / 10 := by omega
  unfold boost
  split
  · exact le_min (by omega) (by omega)
  · omega

theorem countOccGo_pos {needle : List Char} (hne : needle ≠ []) :
    ∀ (fuel : Nat) (hay : List Char), hay.length < fuel →
      inSub needle hay = true → 1 ≤ countOccGo needle fuel hay := by
  intro fuel
  induction fuel with
  | zero => intro hay h _; omega
  | succ f ih =>
    intro hay hlen hsub
    cases hay with
    | nil =>
      rcases needle with _ | ⟨c, t⟩
      · exact absurd rfl hne
      · simp [inSub, isPrefixL] at hsub
    | cons c t =>
      simp only [countOccGo]
      split
      · omega
      · rename_i hpre
        simp only [inSub, List.tail_cons, Bool.or_eq_true] at hsub
        rcases hsub with h | h
        · exact absurd h hpre
        · refine ih t ?_ h
          simp only [List.length_cons] at hlen
          omega

theorem countOcc_pos {needle hay : List Char} (hne : needle ≠ [])
    (h : inSub needle hay = true) : 1 ≤ countOcc needle hay :=
  countOccGo_pos hne (hay.length + 1) hay (by omega) h

/-! ### Substring and JSON-encoding lemmas -/

theorem isPrefixL_append (n post : List Char) : isPrefixL n (n ++ post) = true := by
  induction n with
  | nil => rfl
  | cons c t ih => simp [isPrefixL, ih]

theorem inSub_of_isPrefixL {n hay : List Char} (h : isPrefixL n hay = true) :
    inSub n hay = true := by
  cases hay with
  | nil => simpa [inSub] using h
  | cons c t => simp [inSub, h]

theorem inSub_cons_of {n hay : List Char} (c : Char) (h : inSub n hay = true) :
    inSub n (c :: hay) = true := by
  simp [inSub, List.tail_cons, h]

theorem inSub_of_append (n pre post : List Char) :
    inSub n (pre ++ (n ++ post)) = true := by
  induction pre with
  | nil =>
    rw [List.nil_append]
    exact inSub_of_isPrefixL (isPrefixL_append n post)
  | cons c t ih =>
    rw [List.cons_append]
    exact inSub_cons_of c ih

theorem inSub_of_parts {n hay : List Char} (pre post : List Char)
    (h : hay = pre ++ (n ++ post)) : inSub n hay = true := by
  rw [h]
  exact inSub_of_append n pre post

theorem jsonItems_decomp {t : List Char} :
    ∀ {tags : List (List Char)}, t ∈ tags →
      ∃ pre post, jsonItems tags = pre ++ (jsonQuote t ++ post) := by
  intro tags
  induction tags with
  | nil => intro h; simp at h
  | cons u ts ih =>
    intro ht
    rcases List.mem_cons.mp ht with rfl | ht'
    · cases ts with
      | nil => exact ⟨[], [], by simp [jsonItems]⟩
      | cons v vs => exact ⟨[], ',' :: ' ' :: jsonItems (v :: vs), by simp [jsonItems]⟩
    · obtain ⟨pre, post, hpp⟩ := ih ht'
      cases ts with
      | nil => simp at ht'
      | cons v vs =>
        refine ⟨jsonQuote u ++ (',' :: ' ' :: pre), post, ?_⟩
        simp [jsonItems, hpp, List.append_assoc]

/-- A character that `json.dumps` emits verbatim: printable ASCII other than
the quote and the backslash. -/
def plainChar (c : Char) : Bool :=
  c ≠ '"' && c ≠ '\\' && 32 ≤ c.toNat && c.toNat < 127

/-- A tag whose characters all dump verbatim. -/
def plainTag (t : List Char) : Bool := t.all plainChar

theorem jsonEscapeChar_plain {c : Char} (h : plainChar c = true) :
    jsonEscapeChar c = [c] := by
  simp only [plainChar, Bool.and_eq_true, decide_eq_true_eq, ne_eq] at h
  obtain ⟨⟨⟨h1, h2⟩, h3⟩, h4⟩ := h
  unfold jsonEscapeChar
  rw [if_neg h1, if_neg h2, if_neg ?_, if_neg ?_, if_neg ?_, if_neg ?_,
    if_neg ?_, if_neg ?_]
  · intro hor
    rcases hor with h' | h' <;> omega
  all_goals intro heq
  all_goals subst heq
  all_goals revert h3
  all_goals decide

theorem jsonEscape_plain {t : List Char} (h : plainTag t = true) :
    jsonEscape t = t := by
  induction t with
  | nil => rfl
  | cons c cs ih =>
    simp only [plainTag, List.all_cons, Bool.and_eq_true] at h
    simp only [jsonEscape, List.flatMap_cons]
    rw [jsonEscapeChar_plain h.1]
    have := ih (by simpa [plainTag] using h.2)
    simp only [jsonEscape] at this
    rw [this]
    rfl

theorem tagLike_of_mem {t : List Char} {tags : List (List Char)}
    (hts : t ∈ tags) (hp : plainTag t = true) :
    likeSub (tagPattern t) (jsonDump tags) = true := by
  obtain ⟨pre, post, hpp⟩ := jsonItems_decomp hts
  unfold likeSub
  apply inSub_of_parts (pyLower ('[' :: pre)) (pyLower (post ++ [']']))
  unfold jsonDump tagPattern pyLower
  rw [hpp]
  simp [jsonQuote, jsonEscape_plain hp, List.map_append, List.append_assoc]

/-! ### Unfolding helpers for the search pipeline -/

theorem queryFalsy_false {q : List Char} (hq : q ≠ []) :
    queryFalsy (some q) = false := by
  cases q with
  | nil => exact absurd rfl hq
  | cons c t => rfl

theorem searchResults_some {q : List Char} (hq : q ≠ []) (snips : List Snippet) :
    searchResults (some q) snips
      = sortDescBy (fun r => r.score) (scoreFilter q snips) := by
  unfold searchResults
  rw [queryFalsy_false hq]
  rfl

theorem mem_scoreFilter_elim {q : List Char} {snips : List Snippet}
    {r : SearchResult} (h : r ∈ scoreFilter q snips) :
    0 < r.score ∧ r.score = calculateScore q r.snippet := by
  unfold scoreFilter at h
  obtain ⟨s, _, hf⟩ := List.mem_filterMap.mp h
  by_cases hc : 0 < calculateScore q s
  · rw [if_pos hc] at hf
    cases hf
    exact ⟨hc, rfl⟩
  · rw [if_neg hc] at hf
    cases hf

theorem mem_scoreFilter_intro {q : List Char} {snips : List Snippet}
    {s : Snippet} (hs : s ∈ snips) (hc : 0 < calculateScore q s) :
    SearchResult.mk s (calculateScore q s) ∈ scoreFilter q snips := by
  unfold scoreFilter
  refine List.mem_filterMap.mpr ⟨s, hs, ?_⟩
  rw [if_pos hc]

theorem enumFrom_map_snd {α : Type} :
    ∀ (n : Nat) (l : List α), (List.enumFrom n l).map Prod.snd = l := by
  intro n l
  induction l generalizing n with
  | nil => rfl
  | cons a t ih => simp [List.enumFrom, ih]

theorem enum_map_snd {α : Type} (l : List α) : l.enum.map Prod.snd = l :=
  enumFrom_map_snd 0 l

/-! ### Claim C1 -/

/-- The C1 counterexample query. -/
def c1query : List Char := ['d', 'o', 'c', 'k', 'e', 'r']

/-- The C1 counterexample snippet: a name and content unrelated to the query
and two tags that both contain the query. -/
def c1snippet : Snippet :=
  ⟨['x', 'y', 'z'], ['z', 'z', 'z'], ['a', 'u', 't', 'o'],
    [['d', 'o', 'c', 'k', 'e', 'r', '1'], ['d', 'o', 'c', 'k', 'e', 'r', '2']], 0⟩

/-- C1 counterexample: the Scoring Function is not bounded by 100.  On a
snippet with two tags that both contain the query, no name signal and no
content signal, the uncapped tag sum 70 + 70 = 140 is returned as is,
because the multi-signal boost (the only place the cap applies) never
fires with a single signal. -/
theorem claim1_counterexample :
    calculateScore c1query c1snippet = 140
      ∧ ¬ calculateScore c1query c1snippet ≤ 100 := by
  decide

/-- C1 (amended): the score is a non-negative integer, and it never exceeds
100 provided the snippet has at most one tag; with two or more tags each
containing the query the uncapped tag sum can push the result above 100. -/
theorem calculateScore_le_100_of_tags_le_one (q : List Char) (s : Snippet)
    (h : s.tags.length ≤ 1) : calculateScore q s ≤ 100 := by
  unfold calculateScore
  split
  · omega
  · split
    · omega
    · exact boost_le_100 (fuzzRatio_le_100 _ _) (tagScore_le_70 h)
        (contentScore_le_50 _ _)

/-- The C1 witness snippet, with a single tag. -/
def c1witSnippet : Snippet :=
  ⟨['a', 'b'], ['c', 'd'], ['a', 'u', 't', 'o'], [['t', '1']], 5⟩

/-- Witness for the amended C1 bound at a concrete input. -/
theorem calculateScore_le_100_of_tags_le_one_witness :
    c1witSnippet.tags.length ≤ 1 ∧ calculateScore ['q'] c1witSnippet ≤ 100 :=
  ⟨by decide, calculateScore_le_100_of_tags_le_one ['q'] c1witSnippet (by decide)⟩

/-! ### Claim C2 -/

/-- The C2 failing-input snippet. -/
def c2snippet : Snippet := ⟨['a'], ['b'], ['a', 'u', 't', 'o'], [], 0⟩

/-- C2: evaluating the code at the failing input.  `search` with `limit=0`
returns every candidate instead of the empty list the spec (and the
repository's own test `test_search_with_limit_zero`) require: Python's
`if limit:` treats 0 as falsy and skips truncation. -/
theorem search_limit_zero_returns_all :
    search none [c2snippet] (some 0) = [⟨c2snippet, 100⟩] := by
  decide

/-! ### Claim C3 -/

/-- First C3 store snippet. -/
def c3first : Snippet := ⟨['a'], ['b'], ['a', 'u', 't', 'o'], [], 1⟩

/-- Second C3 store snippet. -/
def c3second : Snippet := ⟨['c'], ['d'], ['a', 'u', 't', 'o'], [], 0⟩

/-- C3 counterexample: a negative limit is not rejected.  `search` with
`limit=-1` returns an ordinary result list (here: all but the last
result), so no `InvalidArgument` error is signalled anywhere. -/
theorem claim3_counterexample :
    search none [c3first, c3second] (some (-1)) = [⟨c3first, 100⟩] := by
  decide

/-- C3 (amended): a negative limit is accepted without validation and is
applied as the Python slice `results[:limit]`, returning all but the last
`|limit|` results. -/
theorem search_negative_limit_slices (query : Option (List Char))
    (snips : List Snippet) (l : Int) (hl : l < 0) :
    search query snips (some l)
      = (searchResults query snips).take
          ((searchResults query snips).length - l.natAbs) := by
  simp only [search, applyLimit, pySlice]
  rw [if_neg (by omega : ¬ l = 0), if_neg (by omega : ¬ (0 : Int) ≤ l)]
  have ht : (-l).toNat = l.natAbs := by omega
  rw [ht]

/-- Witness for the amended C3 slice behaviour at a concrete input. -/
theorem search_negative_limit_slices_witness :
    ((-1 : Int) < 0)
      ∧ search none [c3first, c3second] (some (-1))
          = (searchResults none [c3first, c3second]).take
              ((searchResults none [c3first, c3second]).length - (-1 : Int).natAbs) :=
  ⟨by decide, search_negative_limit_slices none [c3first, c3second] (-1) (by decide)⟩

/-! ### Claim C4 -/

/-- The C4 store snippet, unrelated to a whitespace query. -/
def c4snippet : Snippet := ⟨['a', 'b'], ['c', 'd'], ['a', 'u', 't', 'o'], [], 0⟩

/-- C4 counterexample: the query is not trimmed.  A whitespace-only query is
truthy, goes through scoring, and here every candidate scores 0 and is
dropped, instead of everything being returned with score 100. -/
theorem claim4_counterexample :
    search (some [' ', ' ']) [c4snippet] none = []
      ∧ search (some [' ', ' ']) [c4snippet] none ≠ [⟨c4snippet, 100⟩] := by
  decide

/-- C4 (amended): `search` uses the query as given, with no whitespace
trimming; a whitespace-only query such as two spaces takes the ordinary
scoring path (score, drop non-positive, sort, limit), not the no-query
path. -/
theorem search_whitespace_query_scored (snips : List Snippet)
    (limit : Option Int) :
    search (some [' ', ' ']) snips limit
      = applyLimit limit
          (sortDescBy (fun r => r.score) (scoreFilter [' ', ' '] snips)) := by
  unfold search
  rw [searchResults_some (by decide)]

/-! ### Claim C5 -/

/-- The C5 counterexample query. -/
def c5query : List Char := ['a', 'b']

/-- The C5 counterexample snippet: raw name ratio 67 (weighted 60), one
query-containing tag, no content signal. -/
def c5snippet : Snippet :=
  ⟨['a', 'c', 'b', 'd'], ['q', 'q'], ['a', 'u', 't', 'o'], [['a', 'b', 'z']], 0⟩

/-- C5 counterexample: the boost's first signal uses the raw name ratio, not
the weighted one.  Here the raw ratio is 67 > 60 while the weighted score
is 60, so the code counts two signals and boosts 70 to 77, whereas the
spec's reading counts one signal and returns 70. -/
theorem claim5_counterexample :
    calculateScore c5query c5snippet = 77
      ∧ specSignalScore c5query c5snippet = 70
      ∧ calculateScore c5query c5snippet ≠ specSignalScore c5query c5snippet := by
  decide

/-- C5 (amended): the first counted signal is whether the raw, unweighted
name ratio exceeds 60; when more than one of the three signals holds, the
returned total is `min 100 (floor (total * 1.1))` of the combined
maximum. -/
theorem boost_uses_raw_name_ratio (q : List Char) (s : Snippet)
    (h1 : pyLower q ≠ pyLower s.name)
    (h2 : inSub (pyLower q) (pyLower s.name) = false)
    (h3 : 1 < matchTypes (fuzzRatio (pyLower q) (pyLower s.name))
        (tagScore (pyLower q) s.tags)
        (contentScore (pyLower q) (pyLower s.content))) :
    calculateScore q s
      = min 100
          (fuzzyTotal (fuzzRatio (pyLower q) (pyLower s.name))
            (tagScore (pyLower q) s.tags)
            (contentScore (pyLower q) (pyLower s.content)) * 11 / 10) := by
  unfold calculateScore
  rw [if_neg h1, if_neg (by simp [h2]), boost, if_pos h3]

/-- Witness for the amended C5 boost condition at a concrete input. -/
theorem boost_uses_raw_name_ratio_witness :
    (pyLower c5query ≠ pyLower c5snippet.name)
      ∧ inSub (pyLower c5query) (pyLower c5snippet.name) = false
      ∧ 1 < matchTypes (fuzzRatio (pyLower c5query) (pyLower c5snippet.name))
          (tagScore (pyLower c5query) c5snippet.tags)
          (contentScore (pyLower c5query) (pyLower c5snippet.content))
      ∧ calculateScore c5query c5snippet
          = min 100
              (fuzzyTotal (fuzzRatio (pyLower c5query) (pyLower c5snippet.name))
                (tagScore (pyLower c5query) c5snippet.tags)
                (contentScore (pyLower c5query) (pyLower c5snippet.content)) * 11 / 10) :=
  ⟨by decide, by decide, by decide,
    boost_uses_raw_name_ratio c5query c5snippet (by decide) (by decide) (by decide)⟩

/-! ### Claim C6 -/

/-- C6: scoring a snippet against its own name returns exactly 100 through
the exact-match short circuit: the lower-cased query equals the lower-cased
name, so the first branch of `calculateScore` fires before any fuzzy, tag
or content computation. -/
theorem calculateScore_own_name (s : Snippet) : calculateScore s.name s = 100 := by
  unfold calculateScore
  rw [if_pos rfl]

/-! ### Claim C7 -/

/-- The C7 counterexample snippet, an exact match for the query. -/
def c7snippet : Snippet := ⟨['a', 'b'], ['x'], ['a', 'u', 't', 'o'], [], 0⟩

/-- C7 counterexample: with a non-empty query and the given limit 0 the
result list is not truncated to the limit — one result comes back where a
truncation to 0 would give none (`if limit:` treats 0 as falsy). -/
theorem claim7_counterexample :
    search (some ['a', 'b']) [c7snippet] (some 0) = [⟨c7snippet, 100⟩]
      ∧ ¬ (search (some ['a', 'b']) [c7snippet] (some 0)).length ≤ 0 := by
  decide

/-- C7 (amended): for a non-empty query, `search` scores each candidate,
drops those with score ≤ 0 (every kept result carries its snippet's
positive score), sorts descending, stably — the index-annotated sorted
list is ordered by score descending with store position breaking ties —
and truncates to the limit when a nonzero positive limit is given. -/
theorem search_scored_path (q : List Char) (snips : List Snippet) (l : Int)
    (hq : q ≠ []) (hl : 0 < l) :
    (∀ r ∈ searchResults (some q) snips,
        0 < r.score ∧ r.score = calculateScore q r.snippet)
      ∧ (searchResults (some q) snips).Pairwise (fun a b => b.score ≤ a.score)
      ∧ (searchResults (some q) snips).Perm (scoreFilter q snips)
      ∧ (sortDescBy (fun p : Nat × SearchResult => p.2.score)
            (scoreFilter q snips).enum).map Prod.snd
          = searchResults (some q) snips
      ∧ (sortDescBy (fun p : Nat × SearchResult => p.2.score)
            (scoreFilter q snips).enum).Pairwise
          (stableRel (fun r : SearchResult => r.score))
      ∧ search (some q) snips (some l) = (searchResults (some q) snips).take l.toNat := by
  have hres := searchResults_some hq snips
  refine ⟨?_, ?_, ?_, ?_, ?_, ?_⟩
  · intro r hr
    rw [hres] at hr
    exact mem_scoreFilter_elim (mem_sortDescBy.mp hr)
  · rw [hres]
    exact sortDescBy_pairwise (fun r : SearchResult => r.score) _
  · rw [hres]
    exact sortDescBy_perm _ _
  · rw [hres]
    have hm := sortDescBy_map (fun r : SearchResult => r.score) Prod.snd
      ((scoreFilter q snips).enum)
    rw [enum_map_snd] at hm
    exact hm
  · exact sortDescBy_stable (fun r : SearchResult => r.score) _ (enum_pairwise_fst_lt _)
  · simp only [search, applyLimit, pySlice]
    rw [if_neg (by omega : ¬ l = 0), if_pos (by omega : (0 : Int) ≤ l)]

/-- Witness for the amended C7 at a concrete input, through the truncation
conjunct. -/
theorem search_scored_path_witness :
    (['a', 'b'] ≠ ([] : List Char)) ∧ ((0 : Int) < 1)
      ∧ search (some ['a', 'b']) [c7snippet] (some 1)
          = (searchResults (some ['a', 'b']) [c7snippet]).take (Int.toNat 1) :=
  ⟨by decide, by decide,
    (search_scored_path ['a', 'b'] [c7snippet] 1 (by decide) (by decide)).2.2.2.2.2⟩

/-! ### Claim C8 -/

/-- C8: on any store and any combination of language, tag and limit
arguments, searching with the empty-string query takes exactly the same
path (and so returns exactly the same ordered results) as searching with
no query: both are falsy to `if not query:`. -/
theorem search_empty_query_eq_none_query (language : Option (List Char))
    (tags : Option (List (List Char))) (limit : Option Int)
    (store : List Snippet) :
    engineSearch (some []) language tags limit store
      = engineSearch none language tags limit store := rfl

/-! ### Claim C9 -/

/-- C9: the Store's filtered retrieval uses OR semantics for the tag
filter — a snippet already in the store qualifies (is returned by
`Database.search`) as soon as one tag of the filter is among its own tags,
for any tag made of plainly-dumped characters. -/
theorem dbSearch_tag_or (store : List Snippet) (ftags : List (List Char))
    (s : Snippet) (t : List Char) (hs : s ∈ store) (htf : t ∈ ftags)
    (hts : t ∈ s.tags) (hp : plainTag t = true) :
    s ∈ dbSearch store none none (some ftags) := by
  unfold dbSearch
  rw [mem_sortDescBy]
  refine List.mem_filter.mpr ⟨hs, ?_⟩
  unfold dbQualifies
  have ha : (ftags.any fun t' => likeSub (tagPattern t') (jsonDump s.tags)) = true :=
    List.any_eq_true.mpr ⟨t, htf, tagLike_of_mem hts hp⟩
  simp [queryFalsy, tagsFalsy, ha]

/-- The C9 witness snippet tagged docker. -/
def c9docker : Snippet :=
  ⟨['s', 'a'], ['x'], ['a', 'u', 't', 'o'], [['d', 'o', 'c', 'k', 'e', 'r']], 1⟩

/-- The C9 witness snippet tagged api. -/
def c9api : Snippet :=
  ⟨['s', 'b'], ['y'], ['a', 'u', 't', 'o'], [['a', 'p', 'i']], 0⟩

/-- The C9 witness tag filter, asking for docker or api. -/
def c9filter : List (List Char) :=
  [['d', 'o', 'c', 'k', 'e', 'r'], ['a', 'p', 'i']]

/-- Witness for C9: querying with both tags returns both snippets, not their
intersection. -/
theorem dbSearch_tag_or_witness :
    c9docker ∈ dbSearch [c9docker, c9api] none none (some c9filter)
      ∧ c9api ∈ dbSearch [c9docker, c9api] none none (some c9filter) :=
  ⟨dbSearch_tag_or [c9docker, c9api] c9filter c9docker
      ['d', 'o', 'c', 'k', 'e', 'r'] (by decide) (by decide) (by decide) (by decide),
    dbSearch_tag_or [c9docker, c9api] c9filter c9api
      ['a', 'p', 'i'] (by decide) (by decide) (by decide) (by decide)⟩

/-! ### Claim C10 -/

/-- C10: a non-empty query that misses the name (neither exact nor a
substring) but occurs in the content scores at least 25 — the content
branch yields `min 50 (20 + 5·occurrences)` with at least one occurrence,
the total is a maximum over components and boosting never lowers it — and
such a snippet is therefore kept in the (pre-truncation) search results of
any store containing it. -/
theorem content_hit_scores_25 (q : List Char) (s : Snippet) (hne : q ≠ [])
    (h1 : pyLower q ≠ pyLower s.name)
    (h2 : inSub (pyLower q) (pyLower s.name) = false)
    (h3 : inSub (pyLower q) (pyLower s.content) = true) :
    25 ≤ calculateScore q s
      ∧ ∀ snips, s ∈ snips →
          SearchResult.mk s (calculateScore q s) ∈ searchResults (some q) snips := by
  have hql : pyLower q ≠ [] := by
    cases q with
    | nil => exact absurd rfl hne
    | cons c t => simp [pyLower]
  have hcs : 25 ≤ contentScore (pyLower q) (pyLower s.content) := by
    unfold contentScore
    rw [if_pos h3]
    have := countOcc_pos hql h3
    exact le_min (by omega) (by omega)
  have h25 : 25 ≤ calculateScore q s := by
    unfold calculateScore
    rw [if_neg h1, if_neg (by simp [h2])]
    exact le_boost_of_le_cs hcs (contentScore_le_50 _ _)
  refine ⟨h25, ?_⟩
  intro snips hs
  rw [searchResults_some hne, mem_sortDescBy]
  exact mem_scoreFilter_intro hs (by omega)

/-- The C10 witness snippet: query in content only. -/
def c10snippet : Snippet :=
  ⟨['x', 'y', 'z'], ['d', 'o', ' ', 'i', 't'], ['a', 'u', 't', 'o'], [], 0⟩

/-- Witness for C10 at a concrete input. -/
theorem content_hit_scores_25_witness :
    25 ≤ calculateScore ['d', 'o'] c10snippet
      ∧ SearchResult.mk c10snippet (calculateScore ['d', 'o'] c10snippet)
          ∈ searchResults (some ['d', 'o']) [c10snippet] := by
  have h := content_hit_scores_25 ['d', 'o'] c10snippet (by decide) (by decide)
    (by decide) (by decide)
  exact ⟨h.1, h.2 [c10snippet] (by decide)⟩

end Fredo
